import Mathlib

/-!
Verification development for the GitHub commit-diff lesson generator.

The application code is TypeScript; strings are modelled as `List Char`
(written `Str`), numbers as `Nat`/`Int`, and every use of
`Math.floor(Math.random() * n)` as `stream k % n` for an injected stream
`stream : Nat → Nat` indexed by call site, which captures exactly the
guarantee that the value lies in `[0, n)`.  Persistence (the blink.db
gateway) is modelled as explicit record stores kept in insertion order,
with `create` appending and `update` mapping over the store.
-/

namespace LessonGen

abbrev Str := List Char

/-! ## URL parsing (`parseGitHubUrl` in RepositoryAnalyzer)

The source matches `^https?:\/\/github\.com\/([^/]+)\/([^/]+)(?:\/.*)?$`
and on success returns `{ owner: match[1], repo: match[2].replace(/\.git$/, '') }`,
otherwise it throws `Error('Invalid GitHub URL format')` (modelled as `none`).
The JavaScript regex dot does not match line terminators, and `[^/]` matches
every character other than `/` (line terminators included). -/

def isLineTerm (c : Char) : Bool :=
  c = '\n' || c = '\r' || c = '\u2028' || c = '\u2029'

def notSlash (c : Char) : Bool := c != '/'

def schemeHttps : Str := ['h', 't', 't', 'p', 's', ':', '/', '/']

def schemeHttp : Str := ['h', 't', 't', 'p', ':', '/', '/']

def hostGithub : Str := ['g', 'i', 't', 'h', 'u', 'b', '.', 'c', 'o', 'm', '/']

theorem schemeHttps_eq : schemeHttps = "https://".data := rfl

theorem schemeHttp_eq : schemeHttp = "http://".data := rfl

theorem hostGithub_eq : hostGithub = "github.com/".data := rfl

/-- The `.replace(/\.git$/, '')` step: strip one trailing `.git` if present. -/
def dropDotGit (s : Str) : Str :=
  if ['.', 'g', 'i', 't'].isSuffixOf s then s.take (s.length - 4) else s

/-- The part of the regex after `github.com/`: `([^/]+)\/([^/]+)(?:\/.*)?$`.
When `path.dropWhile notSlash` is non-empty its head is necessarily `/`,
which is the character the literal `\/` consumes, so `tail` steps over it. -/
def parseAfterHost (path : Str) : Option (Str × Str) :=
  let owner := path.takeWhile notSlash
  let rest1 := path.dropWhile notSlash
  if owner = [] ∨ rest1 = [] then none
  else
    let after := rest1.tail
    let repo := after.takeWhile notSlash
    let rest2 := after.dropWhile notSlash
    if repo = [] then none
    else if rest2 = [] then some (owner, dropDotGit repo)
    else if rest2.tail.any isLineTerm then none
    else some (owner, dropDotGit repo)

/-- The host part of the regex: a literal `github.com/`. -/
def parseHost (rest : Str) : Option (Str × Str) :=
  if hostGithub.isPrefixOf rest then parseAfterHost (rest.drop hostGithub.length) else none

/-- `parseGitHubUrl`: scheme `https?://`, host `github.com/`, then owner and repo. -/
def parseGitHubUrl (url : Str) : Option (Str × Str) :=
  if schemeHttps.isPrefixOf url then parseHost (url.drop schemeHttps.length)
  else if schemeHttp.isPrefixOf url then parseHost (url.drop schemeHttp.length)
  else none

/-- Tails accepted by the optional `(?:\/.*)?$` group: nothing, or a slash
followed by characters the regex dot can match (no line terminators). -/
def goodTail (t : Str) : Prop :=
  t = [] ∨ ∃ rest, t = '/' :: rest ∧ rest.any isLineTerm = false

/-- The exact set of strings accepted by the source regex, together with the
owner/repo decomposition it extracts. -/
def urlShape (url owner repo : Str) : Prop :=
  owner ≠ [] ∧ repo ≠ [] ∧ '/' ∉ owner ∧ '/' ∉ repo ∧
    ∃ tail, goodTail tail ∧
      (url = schemeHttps ++ hostGithub ++ owner ++ '/' :: (repo ++ tail) ∨
       url = schemeHttp ++ hostGithub ++ owner ++ '/' :: (repo ++ tail))

/-- Head of the claim-side URL shape, written from the claim text for
comparison with the source parser: `https://github.com/` (https only). -/
def claimHead : Str :=
  ['h', 't', 't', 'p', 's', ':', '/', '/', 'g', 'i', 't', 'h', 'u', 'b', '.', 'c', 'o', 'm', '/']

theorem claimHead_eq : claimHead = "https://github.com/".data := rfl

def claimSuffixOk (suffix : Str) : Prop :=
  suffix = [] ∨ suffix = ['.', 'g', 'i', 't'] ∨ ∃ seg, suffix = '/' :: seg

def claimShape (url owner repo : Str) : Prop :=
  owner ≠ [] ∧ repo ≠ [] ∧ '/' ∉ owner ∧ '/' ∉ repo ∧
    ∃ suffix, claimSuffixOk suffix ∧ url = claimHead ++ owner ++ '/' :: (repo ++ suffix)

/-! ## Characterizing the parser -/

theorem isPrefixOf_eq_true : ∀ {l u : Str}, l.isPrefixOf u = true ↔ ∃ t, u = l ++ t := by
  intro l
  induction l with
  | nil => intro u; simp [List.isPrefixOf]
  | cons a as ih =>
    intro u
    cases u with
    | nil => simp [List.isPrefixOf]
    | cons b bs =>
      simp only [List.isPrefixOf, Bool.and_eq_true, beq_iff_eq, ih, List.cons_append,
        List.cons.injEq]
      constructor
      · rintro ⟨rfl, t, rfl⟩; exact ⟨t, rfl, rfl⟩
      · rintro ⟨t, rfl, rfl⟩; exact ⟨rfl, t, rfl⟩

theorem takeWhile_notSlash_all {a : Str} (h : '/' ∉ a) :
    a.takeWhile notSlash = a ∧ a.dropWhile notSlash = [] := by
  induction a with
  | nil => simp
  | cons x xs ih =>
    simp only [List.mem_cons, not_or] at h
    have hx : notSlash x = true := by
      simp only [notSlash, bne_iff_ne, ne_eq]
      exact fun e => h.1 e.symm
    have := ih h.2
    simp [List.takeWhile_cons, List.dropWhile_cons, hx, this.1, this.2]

theorem takeWhile_notSlash_append {a : Str} (b : Str) (h : '/' ∉ a) :
    (a ++ '/' :: b).takeWhile notSlash = a ∧ (a ++ '/' :: b).dropWhile notSlash = '/' :: b := by
  induction a with
  | nil => simp [List.takeWhile_cons, List.dropWhile_cons, notSlash]
  | cons x xs ih =>
    simp only [List.mem_cons, not_or] at h
    have hx : notSlash x = true := by
      simp only [notSlash, bne_iff_ne, ne_eq]
      exact fun e => h.1 e.symm
    have := ih h.2
    simp [List.takeWhile_cons, List.dropWhile_cons, hx, this.1, this.2]

theorem dropWhile_notSlash_shape (l : Str) :
    l.dropWhile notSlash = [] ∨ l.dropWhile notSlash = '/' :: (l.dropWhile notSlash).tail := by
  induction l with
  | nil => left; rfl
  | cons x xs ih =>
    by_cases hx : x = '/'
    · subst hx; right; simp [List.dropWhile_cons, notSlash]
    · have hx' : notSlash x = true := by simp [notSlash, hx]
      simpa [List.dropWhile_cons, hx'] using ih

theorem not_mem_takeWhile_notSlash (l : Str) : '/' ∉ l.takeWhile notSlash := by
  intro h
  have := List.mem_takeWhile_imp h
  simp [notSlash] at this

theorem parseAfterHost_eq_some {path : Str} {q : Str × Str} :
    parseAfterHost path = some q ↔
      ∃ owner repo tail, owner ≠ [] ∧ repo ≠ [] ∧ '/' ∉ owner ∧ '/' ∉ repo ∧
        goodTail tail ∧ path = owner ++ '/' :: (repo ++ tail) ∧
        q = (owner, dropDotGit repo) := by
  constructor
  · intro h
    simp only [parseAfterHost] at h
    split_ifs at h with h1 h2 h3 h4
    · -- first success arm: rest2 = []
      push_neg at h1
      obtain ⟨ho, hr1⟩ := h1
      rcases dropWhile_notSlash_shape path with hsh | hsh
      · exact absurd hsh hr1
      obtain ⟨t0, hsh⟩ : ∃ t0, path.dropWhile notSlash = '/' :: t0 := ⟨_, hsh⟩
      rw [hsh] at h2 h3 h
      simp only [List.tail_cons] at h2 h3 h
      have hrepo : t0.takeWhile notSlash = t0 := by
        have := List.takeWhile_append_dropWhile notSlash t0
        simpa [h3] using this
      refine ⟨path.takeWhile notSlash, t0.takeWhile notSlash, [], ho, h2,
        not_mem_takeWhile_notSlash _, not_mem_takeWhile_notSlash _, Or.inl rfl, ?_,
        by simpa using h.symm⟩
      calc path = path.takeWhile notSlash ++ path.dropWhile notSlash :=
            (List.takeWhile_append_dropWhile notSlash path).symm
        _ = path.takeWhile notSlash ++ '/' :: (t0.takeWhile notSlash ++ []) := by
            rw [hsh]; simp [hrepo]
    · -- second success arm: rest2 = '/' :: t with no line terminators
      push_neg at h1
      obtain ⟨ho, hr1⟩ := h1
      rcases dropWhile_notSlash_shape path with hsh | hsh
      · exact absurd hsh hr1
      obtain ⟨t0, hsh⟩ : ∃ t0, path.dropWhile notSlash = '/' :: t0 := ⟨_, hsh⟩
      rw [hsh] at h2 h3 h4 h
      simp only [List.tail_cons] at h2 h3 h4 h
      rcases dropWhile_notSlash_shape t0 with hsh2 | hsh2
      · exact absurd hsh2 h3
      obtain ⟨t1, hsh2⟩ : ∃ t1, t0.dropWhile notSlash = '/' :: t1 := ⟨_, hsh2⟩
      rw [hsh2] at h4
      simp only [List.tail_cons] at h4
      have hafter : t0.takeWhile notSlash ++ '/' :: t1 = t0 := by
        rw [← hsh2]; exact List.takeWhile_append_dropWhile notSlash t0
      refine ⟨path.takeWhile notSlash, t0.takeWhile notSlash, '/' :: t1, ho, h2,
        not_mem_takeWhile_notSlash _, not_mem_takeWhile_notSlash _,
        Or.inr ⟨t1, rfl, by simpa using h4⟩, ?_, by simpa using h.symm⟩
      calc path = path.takeWhile notSlash ++ path.dropWhile notSlash :=
            (List.takeWhile_append_dropWhile notSlash path).symm
        _ = path.takeWhile notSlash ++ '/' :: (t0.takeWhile notSlash ++ '/' :: t1) := by
            rw [hsh]
            exact congrArg (fun z => path.takeWhile notSlash ++ '/' :: z) hafter.symm
  · rintro ⟨owner, repo, tail, ho, hr, hso, hsr, htail, rfl, rfl⟩
    rcases htail with rfl | ⟨r0, rfl, hany⟩
    · have h1 := takeWhile_notSlash_append (repo ++ []) hso
      simp only [List.append_nil] at h1 ⊢
      have h2 := takeWhile_notSlash_all hsr
      simp only [parseAfterHost, h1.1, h1.2, List.tail_cons, h2.1, h2.2]
      simp [ho, hr]
    · have h1 := takeWhile_notSlash_append (repo ++ '/' :: r0) hso
      have h2 := takeWhile_notSlash_append r0 hsr
      simp only [parseAfterHost, h1.1, h1.2, List.tail_cons, h2.1, h2.2]
      simp [ho, hr, hany]

theorem parseHost_eq_some {rest : Str} {q : Str × Str} :
    parseHost rest = some q ↔
      ∃ path, rest = hostGithub ++ path ∧ parseAfterHost path = some q := by
  constructor
  · intro h
    simp only [parseHost] at h
    split_ifs at h with hp
    · obtain ⟨t, rfl⟩ := isPrefixOf_eq_true.mp hp
      exact ⟨t, rfl, by simpa [List.drop_left] using h⟩
  · rintro ⟨path, rfl, h⟩
    have hp : hostGithub.isPrefixOf (hostGithub ++ path) = true :=
      isPrefixOf_eq_true.mpr ⟨path, rfl⟩
    simp [parseHost, hp, List.drop_left, h]

theorem not_https_isPrefixOf_http (rest : Str) :
    schemeHttps.isPrefixOf (schemeHttp ++ rest) = false := rfl

theorem parseGitHubUrl_eq_some {url : Str} {q : Str × Str} :
    parseGitHubUrl url = some q ↔
      ∃ rest, (url = schemeHttps ++ rest ∨ url = schemeHttp ++ rest) ∧
        parseHost rest = some q := by
  constructor
  · intro h
    simp only [parseGitHubUrl] at h
    split_ifs at h with h1 h2
    · obtain ⟨t, rfl⟩ := isPrefixOf_eq_true.mp h1
      exact ⟨t, Or.inl rfl, by simpa [List.drop_left] using h⟩
    · obtain ⟨t, rfl⟩ := isPrefixOf_eq_true.mp h2
      exact ⟨t, Or.inr rfl, by simpa [List.drop_left] using h⟩
  · rintro ⟨rest, hurl | hurl, h⟩ <;> subst hurl
    · have hp : schemeHttps.isPrefixOf (schemeHttps ++ rest) = true :=
        isPrefixOf_eq_true.mpr ⟨rest, rfl⟩
      simp [parseGitHubUrl, hp, List.drop_left, h]
    · have hp : schemeHttp.isPrefixOf (schemeHttp ++ rest) = true :=
        isPrefixOf_eq_true.mpr ⟨rest, rfl⟩
      simp [parseGitHubUrl, hp, not_https_isPrefixOf_http, List.drop_left, h]

/-- C1 (amended): the parser succeeds exactly on URLs of the shape
`http(s)://github.com/<owner>/<repo>` with owner and repo non-empty and
slash-free, optionally followed by `/` and a line-terminator-free rest of
path, and then returns exactly the owner and the repo with one trailing
`.git` stripped; on every other string it fails with the invalid-URL error.
The claim as frozen admits only the `https` scheme; the code also accepts
`http`. -/
theorem parseGitHubUrl_spec (url : Str) (q : Str × Str) :
    parseGitHubUrl url = some q ↔
      ∃ owner repo, urlShape url owner repo ∧ q = (owner, dropDotGit repo) := by
  rw [parseGitHubUrl_eq_some]
  constructor
  · rintro ⟨rest, hrest, h⟩
    obtain ⟨path, rfl, hp⟩ := parseHost_eq_some.mp h
    obtain ⟨owner, repo, tail, ho, hr, hso, hsr, ht, rfl, rfl⟩ := parseAfterHost_eq_some.mp hp
    exact ⟨owner, repo, ⟨ho, hr, hso, hsr, tail, ht, hrest⟩, rfl⟩
  · rintro ⟨owner, repo, ⟨ho, hr, hso, hsr, tail, ht, hurl⟩, rfl⟩
    refine ⟨hostGithub ++ (owner ++ '/' :: (repo ++ tail)), hurl, ?_⟩
    exact parseHost_eq_some.mpr
      ⟨_, rfl, parseAfterHost_eq_some.mpr ⟨owner, repo, tail, ho, hr, hso, hsr, ht, rfl, rfl⟩⟩

/-- C1 counterexample: `http://github.com/acme/widgets` is not of the
claimed `https://github.com/<owner>/<repo>` form, yet the parser does not
fail on it — it returns `(acme, widgets)`. -/
theorem parseGitHubUrl_claim_counterexample :
    parseGitHubUrl "http://github.com/acme/widgets".data =
        some ("acme".data, "widgets".data) ∧
      ∀ owner repo : Str, ¬ claimShape "http://github.com/acme/widgets".data owner repo := by
  constructor
  · decide
  · rintro owner repo ⟨-, -, -, -, suffix, -, heq⟩
    rw [List.append_assoc] at heq
    have h5 := congrArg (List.take 5) heq
    rw [List.take_append_of_le_length (by decide)] at h5
    exact absurd h5 (by decide)

/-! ## The mock commit generator (`simulateCommitData` in RepositoryAnalyzer)

Each `Math.floor(Math.random() * n)` call site gets its own injected stream
`Nat → Nat`, reduced `% n`; `Math.random().toString(36).substring(2, 10)`
(the fake sha) is injected as a string stream; `Date.now()` is the
parameter `now` in milliseconds. -/

def commitMessages : List Str :=
  ["Initial commit".data,
   "Add basic project structure".data,
   "Implement core functionality".data,
   "Add user authentication".data,
   "Fix authentication bugs".data,
   "Add database integration".data,
   "Implement API endpoints".data,
   "Add error handling".data,
   "Update documentation".data,
   "Optimize performance".data,
   "Add unit tests".data,
   "Fix security vulnerabilities".data,
   "Update dependencies".data,
   "Add new features".data,
   "Final cleanup and release".data]

def authors : List Str :=
  ["John Doe".data, "Jane Smith".data, "Mike Johnson".data, "Sarah Wilson".data]

def dayMs : Nat := 86400000

def natChars (n : Nat) : Str := Nat.toDigits 10 n

/-- The `.toLowerCase().replace(' ', '.')` step of the author email: JS
`replace` with a string pattern replaces only the first occurrence. -/
def dotFirstSpace : Str → Str
  | [] => []
  | c :: cs => if c = ' ' then '.' :: cs else c :: dotFirstSpace cs

def emailOf (author : Str) : Str :=
  dotFirstSpace (author.map Char.toLower) ++ "@example.com".data

structure GenCommit where
  id : Str
  sha : Str
  message : Str
  authorName : Str
  authorEmail : Str
  date : Int
  filesChanged : Nat
  additions : Nat
  deletions : Nat
  commitOrder : Nat
deriving DecidableEq

/-- Random streams consumed by `simulateCommitData`, one per call site. -/
structure RandStream where
  authorIdx : Nat → Nat
  shaStr : Nat → Str
  filesR : Nat → Nat
  addsR : Nat → Nat
  delsR : Nat → Nat

def pickAuthor (rs : RandStream) (i : Nat) : Str :=
  authors.getD (rs.authorIdx i % authors.length) []

def mkCommit (now : Nat) (rs : RandStream) (i : Nat) : GenCommit :=
  { id := "commit_".data ++ natChars now ++ '_' :: natChars i
    sha := rs.shaStr i
    message := commitMessages.getD i []
    authorName := pickAuthor rs i
    authorEmail := emailOf (pickAuthor rs i)
    date := (now : Int) - ((commitMessages.length - i : Nat) : Int) * (dayMs : Int)
    filesChanged := rs.filesR i % 10 + 1
    additions := rs.addsR i % 100 + 10
    deletions := rs.delsR i % 50 + 1
    commitOrder := i + 1 }

/-- The loop `for (let i = 0; i < Math.min(commitMessages.length, 10); i++)`. -/
def simulateCommitData (repoName owner : Str) (now : Nat) (rs : RandStream) :
    List GenCommit :=
  (List.range (min commitMessages.length 10)).map (mkCommit now rs)

/-! ## The mock file generator (`simulateCommitFiles`) -/

def fileExtensions : List Str :=
  [".js".data, ".ts".data, ".tsx".data, ".css".data, ".html".data, ".md".data, ".json".data]

def fileNames : List Str :=
  ["index".data, "app".data, "component".data, "utils".data, "config".data,
   "styles".data, "readme".data]

def statuses : List Str := ["added".data, "modified".data, "deleted".data]

def sAdded : Str := "added".data

def sModified : Str := "modified".data

def sDeleted : Str := "deleted".data

structure GenFile where
  id : Str
  commitId : Str
  filename : Str
  status : Str
  additions : Nat
  deletions : Nat
  patch : Str
deriving DecidableEq

/-- Random streams consumed by `simulateCommitFiles`, one per call site. -/
structure FileRandStream where
  nameIdx : Nat → Nat
  extIdx : Nat → Nat
  statusIdx : Nat → Nat
  hunkLen : Nat → Nat
  lineCount : Nat → Nat
  m1 : Nat → Nat
  m2 : Nat → Nat
  m3 : Nat → Nat
  m4 : Nat → Nat
  addsR : Nat → Nat
  delsR : Nat → Nat

def joinNL (lines : List Str) : Str := List.intercalate ['\n'] lines

def addedPatch (fname : Str) (fs : FileRandStream) (i : Nat) : Str :=
  "+++ b/".data ++ fname ++ '\n' ::
    ("@@ -0,0 +1,".data ++ natChars (fs.hunkLen i % 20 + 5) ++ " @@".data) ++ '\n' ::
    joinNL (List.replicate (fs.lineCount i % 10 + 3) "+  // New line of code".data)

def deletedPatch (fname : Str) (fs : FileRandStream) (i : Nat) : Str :=
  "--- a/".data ++ fname ++ '\n' ::
    ("@@ -1,".data ++ natChars (fs.hunkLen i % 20 + 5) ++ " +0,0 @@".data) ++ '\n' ::
    joinNL (List.replicate (fs.lineCount i % 10 + 3) "-  // Removed line of code".data)

def modifiedPatch (fname : Str) (fs : FileRandStream) (i : Nat) : Str :=
  "--- a/".data ++ fname ++ '\n' :: ("+++ b/".data ++ fname) ++ '\n' ::
    ("@@ -".data ++ natChars (fs.m1 i % 10 + 1) ++ ',' :: natChars (fs.m2 i % 5 + 3) ++
      " +".data ++ natChars (fs.m3 i % 10 + 1) ++ ',' :: natChars (fs.m4 i % 5 + 3) ++
      " @@".data) ++ '\n' ::
    ("-  // Old line of code".data ++ '\n' :: "+  // New line of code".data)

def mkFile (commitId : Str) (now : Nat) (fs : FileRandStream) (i : Nat) : GenFile :=
  let fname := fileNames.getD (fs.nameIdx i % fileNames.length) [] ++
    fileExtensions.getD (fs.extIdx i % fileExtensions.length) []
  let status := statuses.getD (fs.statusIdx i % statuses.length) []
  { id := "file_".data ++ natChars now ++ '_' :: natChars i
    commitId := commitId
    filename := fname
    status := status
    additions := if status = sDeleted then 0 else fs.addsR i % 20 + 1
    deletions := if status = sAdded then 0 else fs.delsR i % 10 + 1
    patch :=
      if status = sAdded then addedPatch fname fs i
      else if status = sDeleted then deletedPatch fname fs i
      else modifiedPatch fname fs i }

/-- The loop `for (let i = 0; i < filesChanged; i++)`. -/
def simulateCommitFiles (commitId : Str) (filesChanged : Nat) (now : Nat)
    (fs : FileRandStream) : List GenFile :=
  (List.range filesChanged).map (mkFile commitId now fs)

/-- An all-zeros random stream, for concrete evaluations. -/
def rs0 : RandStream :=
  { authorIdx := fun _ => 0, shaStr := fun _ => "a1b2c3d4".data,
    filesR := fun _ => 0, addsR := fun _ => 0, delsR := fun _ => 0 }

/-- An all-zeros file random stream, for concrete evaluations. -/
def fs0 : FileRandStream :=
  { nameIdx := fun _ => 0, extIdx := fun _ => 0, statusIdx := fun _ => 0,
    hunkLen := fun _ => 0, lineCount := fun _ => 0,
    m1 := fun _ => 0, m2 := fun _ => 0, m3 := fun _ => 0, m4 := fun _ => 0,
    addsR := fun _ => 0, delsR := fun _ => 0 }

/-- C5: the generator emits at most 10 commits, and their `commitOrder`
indices are exactly `1..N` in order — contiguous from 1, no gaps, no
repeats. -/
theorem simulateCommitData_order (repoName owner : Str) (now : Nat) (rs : RandStream) :
    (simulateCommitData repoName owner now rs).length ≤ 10 ∧
      (simulateCommitData repoName owner now rs).map GenCommit.commitOrder =
        (List.range (simulateCommitData repoName owner now rs).length).map
          (fun i => i + 1) := by
  constructor
  · simp only [simulateCommitData, List.length_map, List.length_range]
    exact Nat.min_le_right _ _
  · simp only [simulateCommitData, List.map_map, List.length_map, List.length_range]
    exact List.map_congr_left (fun i _ => by simp [mkCommit, Function.comp])

/-- C3 counterexample: on a concrete run the produced message sequence is the
first 10 pool messages, not the last 10 (`commitMessages.drop 5`) that the
claim demands. -/
theorem simulateCommitData_messages_counterexample :
    (simulateCommitData "widgets".data "acme".data 0 rs0).map GenCommit.message ≠
        commitMessages.drop 5 ∧
      (simulateCommitData "widgets".data "acme".data 0 rs0).map GenCommit.message =
        commitMessages.take 10 := by
  constructor
  · decide
  · decide

/-- C3 (amended): the produced sequence consists of the first 10 pool
messages, in pool order — when the 15-message pool exceeds the 10-commit
cap, the latest pool entries are the ones dropped. -/
theorem simulateCommitData_messages (repoName owner : Str) (now : Nat) (rs : RandStream) :
    (simulateCommitData repoName owner now rs).map GenCommit.message =
      commitMessages.take 10 := by
  simp only [simulateCommitData, List.map_map]
  have h : (GenCommit.message ∘ mkCommit now rs) = fun i => commitMessages.getD i [] := by
    funext i
    simp [mkCommit, Function.comp]
  rw [h]
  decide

/-- C10: every generated commit has `filesChanged ∈ [1, 10]`,
`additions ∈ [10, 109]` and `deletions ∈ [1, 50]`; in particular
`filesChanged` is never zero, so the file generator's zero-file branch is
unreachable from generated commits. -/
theorem simulateCommitData_bounds (repoName owner : Str) (now : Nat) (rs : RandStream) :
    ∀ c ∈ simulateCommitData repoName owner now rs,
      1 ≤ c.filesChanged ∧ c.filesChanged ≤ 10 ∧
        10 ≤ c.additions ∧ c.additions ≤ 109 ∧
        1 ≤ c.deletions ∧ c.deletions ≤ 50 ∧
        ∀ (cid : Str) (now2 : Nat) (fs : FileRandStream),
          simulateCommitFiles cid c.filesChanged now2 fs ≠ [] := by
  intro c hc
  simp only [simulateCommitData, List.mem_map, List.mem_range] at hc
  obtain ⟨i, -, rfl⟩ := hc
  have h1 : rs.filesR i % 10 < 10 := Nat.mod_lt _ (by decide)
  have h2 : rs.addsR i % 100 < 100 := Nat.mod_lt _ (by decide)
  have h3 : rs.delsR i % 50 < 50 := Nat.mod_lt _ (by decide)
  simp only [mkCommit]
  refine ⟨by omega, by omega, by omega, by omega, by omega, by omega, ?_⟩
  intro cid now2 fs hnil
  have hlen : (simulateCommitFiles cid (rs.filesR i % 10 + 1) now2 fs).length =
      rs.filesR i % 10 + 1 := by
    simp [simulateCommitFiles]
  rw [hnil] at hlen
  simp at hlen

/-- C10 witness: a concrete generated commit is in bounds and its file list
is non-empty. -/
theorem simulateCommitData_bounds_witness :
    mkCommit 0 rs0 0 ∈ simulateCommitData "widgets".data "acme".data 0 rs0 ∧
      1 ≤ (mkCommit 0 rs0 0).filesChanged ∧ (mkCommit 0 rs0 0).filesChanged ≤ 10 ∧
      simulateCommitFiles "c".data (mkCommit 0 rs0 0).filesChanged 0 fs0 ≠ [] := by
  have hmem : mkCommit 0 rs0 0 ∈ simulateCommitData "widgets".data "acme".data 0 rs0 := by
    decide
  have h := simulateCommitData_bounds "widgets".data "acme".data 0 rs0 (mkCommit 0 rs0 0) hmem
  exact ⟨hmem, h.1, h.2.1, h.2.2.2.2.2.2 "c".data 0 fs0⟩

/-- C6: the file generator returns exactly `filesChanged` records (it is a
total function, so it never raises), and zero requested files yields the
empty list. -/
theorem simulateCommitFiles_count (cid : Str) (n now : Nat) (fs : FileRandStream) :
    (simulateCommitFiles cid n now fs).length = n ∧
      simulateCommitFiles cid 0 now fs = [] := by
  constructor
  · simp [simulateCommitFiles]
  · simp [simulateCommitFiles]

/-- C7: every generated file record has zero deletions when its status is
`added` and zero additions when its status is `deleted`; both counters are
naturals, hence non-negative. -/
theorem simulateCommitFiles_status (cid : Str) (n now : Nat) (fs : FileRandStream) :
    ∀ f ∈ simulateCommitFiles cid n now fs,
      (f.status = sAdded → f.deletions = 0) ∧ (f.status = sDeleted → f.additions = 0) := by
  intro f hf
  simp only [simulateCommitFiles, List.mem_map, List.mem_range] at hf
  obtain ⟨i, -, rfl⟩ := hf
  refine ⟨fun h => ?_, fun h => ?_⟩
  · simp only [mkFile] at h ⊢
    rw [if_pos h]
  · simp only [mkFile] at h ⊢
    rw [if_pos h]

/-- C7 witness: a concrete generated file has status `added` and zero
deletions. -/
theorem simulateCommitFiles_status_witness :
    mkFile "c".data 0 fs0 0 ∈ simulateCommitFiles "c".data 1 0 fs0 ∧
      (mkFile "c".data 0 fs0 0).status = sAdded ∧
      (mkFile "c".data 0 fs0 0).deletions = 0 := by
  have hmem : mkFile "c".data 0 fs0 0 ∈ simulateCommitFiles "c".data 1 0 fs0 := by decide
  exact ⟨hmem, by decide,
    (simulateCommitFiles_status "c".data 1 0 fs0 _ hmem).1 (by decide)⟩

/-! ## The diff line classifier (`formatPatch` in CodeViewer)

The source splits the patch on newlines (returning `[]` for an empty patch)
and maps each line, with index, to a rendering record carrying a CSS class
and a prefix character; the CSS class is what visually classifies the line. -/

structure PatchLine where
  id : Nat
  content : Str
  cls : Str
  pfx : Str
  originalLine : Str
deriving DecidableEq

def clsDefault : Str := "text-slate-700".data

def clsHeader : Str := "text-slate-500 font-medium".data

def clsHunk : Str := "text-blue-600 font-medium bg-blue-50".data

def clsAdd : Str := "text-green-700 bg-green-50".data

def clsDel : Str := "text-red-700 bg-red-50".data

/-- One line of `formatPatch`: the if/else chain from the source, including
`content: line.substring(prefix ? 1 : 0)`. -/
def formatLine (idx : Nat) (line : Str) : PatchLine :=
  if ['+', '+', '+'].isPrefixOf line || ['-', '-', '-'].isPrefixOf line then
    { id := idx, content := line, cls := clsHeader, pfx := [], originalLine := line }
  else if ['@', '@'].isPrefixOf line then
    { id := idx, content := line, cls := clsHunk, pfx := [], originalLine := line }
  else if ['+'].isPrefixOf line then
    { id := idx, content := line.drop 1, cls := clsAdd, pfx := ['+'], originalLine := line }
  else if ['-'].isPrefixOf line then
    { id := idx, content := line.drop 1, cls := clsDel, pfx := ['-'], originalLine := line }
  else if [' '].isPrefixOf line then
    { id := idx, content := line.drop 1, cls := clsDefault, pfx := [' '], originalLine := line }
  else
    { id := idx, content := line, cls := clsDefault, pfx := [], originalLine := line }

def formatPatch (patch : Str) : List PatchLine :=
  if patch = [] then []
  else (patch.splitOn '\n').enum.map (fun p => formatLine p.1 p.2)

inductive LineKind where
  | header
  | hunk
  | addition
  | deletion
  | context
deriving DecidableEq

/-- Classification rule exactly as the claim states it: `+++`/`---` file
header first, then `@@` hunk header, then `+` addition, then `-` deletion,
otherwise context. -/
def specClassify (line : Str) : LineKind :=
  if ['+', '+', '+'].isPrefixOf line || ['-', '-', '-'].isPrefixOf line then .header
  else if ['@', '@'].isPrefixOf line then .hunk
  else if ['+'].isPrefixOf line then .addition
  else if ['-'].isPrefixOf line then .deletion
  else .context

/-- Read the rendered category back off a produced line via its CSS class. -/
def kindOf (pl : PatchLine) : LineKind :=
  if pl.cls = clsHeader then .header
  else if pl.cls = clsHunk then .hunk
  else if pl.cls = clsAdd then .addition
  else if pl.cls = clsDel then .deletion
  else .context

theorem kindOf_formatLine (idx : Nat) (line : Str) :
    kindOf (formatLine idx line) = specClassify line := by
  simp only [formatLine, specClassify]
  split_ifs <;> rfl

theorem originalLine_formatLine (idx : Nat) (line : Str) :
    (formatLine idx line).originalLine = line := by
  simp only [formatLine]
  split_ifs <;> rfl

theorem enumFrom_map_snd {α β : Type} (g : α → β) :
    ∀ (n : Nat) (l : List α), (List.enumFrom n l).map (fun p => g p.2) = l.map g := by
  intro n l
  induction l generalizing n with
  | nil => rfl
  | cons x xs ih => simp [List.enumFrom, ih]

/-- C4: on every non-empty patch text the classifier works line by line in
original order: `+++`/`---` is a file header, else `@@` is a hunk header,
else `+` an addition, else `-` a deletion, else context; the produced rows
carry the original lines in their original order. -/
theorem formatPatch_classification (patch : Str) (h : patch ≠ []) :
    (formatPatch patch).map kindOf = (patch.splitOn '\n').map specClassify ∧
      (formatPatch patch).map PatchLine.originalLine = patch.splitOn '\n' := by
  constructor
  · simp only [formatPatch, if_neg h, List.map_map]
    have hfun : (kindOf ∘ fun p : Nat × Str => formatLine p.1 p.2) =
        (fun p : Nat × Str => specClassify p.2) := by
      funext p
      simp [Function.comp, kindOf_formatLine]
    rw [hfun]
    simp only [List.enum]
    exact enumFrom_map_snd specClassify 0 _
  · simp only [formatPatch, if_neg h, List.map_map]
    have hfun : (PatchLine.originalLine ∘ fun p : Nat × Str => formatLine p.1 p.2) =
        (fun p : Nat × Str => p.2) := by
      funext p
      simp [Function.comp, originalLine_formatLine]
    rw [hfun]
    simp only [List.enum]
    have h2 := enumFrom_map_snd (fun l : Str => l) 0 (patch.splitOn '\n')
    rw [h2]
    simp

def examplePatch : Str := "+++ b/x\n@@ -1,1 +1,1 @@\n+foo\n-bar\n baz".data

/-- C4 witness: on the claim's example patch the five lines classify as
header, hunk, addition, deletion, context, in that order. -/
theorem formatPatch_classification_witness :
    examplePatch ≠ [] ∧
      (formatPatch examplePatch).map kindOf =
        [LineKind.header, LineKind.hunk, LineKind.addition, LineKind.deletion,
         LineKind.context] := by
  refine ⟨by decide, ?_⟩
  rw [(formatPatch_classification examplePatch (by decide)).1]
  decide

/-! ## The lesson panel (`loadLesson` / `generateLesson` in LessonPanel)

Lessons live in a persisted store kept in insertion order. `loadLesson`
issues `blink.db.lessons.list({ where: { commitId }, limit: 1 })` — note
that no ordering is requested — and displays `lessonsData[0]`.
`generateLesson` builds a prompt, calls the text-generation gateway (its
result is the injected `text`), and always `create`s a fresh record. -/

structure LessonRec where
  id : Str
  commitId : Str
  createdAt : Nat
  title : Str
  content : Str
  summary : Str
  keyConcepts : Str
  difficultyLevel : Str
  estimatedReadingTime : Nat
  status : Str
deriving DecidableEq

/-- The list call with an equality filter on `commitId` and a limit, over a
store in insertion order (no `orderBy` is passed by the source). -/
def lessonsList (store : List LessonRec) (cid : Str) (lim : Nat) : List LessonRec :=
  (store.filter (fun l => l.commitId == cid)).take lim

/-- `loadLesson`: displays `lessonsData[0]` when the list is non-empty. -/
def loadLesson (store : List LessonRec) (cid : Str) : Option LessonRec :=
  (lessonsList store cid 1).head?

/-- The lesson record `generateLesson` persists: `now` is the `Date.now()`
embedded in the generated id (the record's creation time), `sfx` the random
id suffix, `text` the AI-generated body; reading time is
`Math.ceil(text.length / 200)`, difficulty and key concepts are hardcoded. -/
def mkLessonRec (now : Nat) (sfx : Str) (c : GenCommit) (text : Str) : LessonRec :=
  { id := "lesson_".data ++ natChars now ++ '_' :: sfx
    commitId := c.id
    createdAt := now
    title := "Understanding: ".data ++ c.message
    content := text
    summary := "Learn about the changes made in commit ".data ++ c.sha.take 8
    keyConcepts := "Git, Version Control, Code Analysis".data
    difficultyLevel := "intermediate".data
    estimatedReadingTime := (text.length + 199) / 200
    status := "generated".data }

/-- `generateLesson` always creates a fresh record (appended to the store);
nothing is updated in place. -/
def generateLesson (store : List LessonRec) (c : GenCommit) (text : Str)
    (now : Nat) (sfx : Str) : List LessonRec × LessonRec :=
  (store ++ [mkLessonRec now sfx c text], mkLessonRec now sfx c text)

/-- C2 counterexample: regenerating for a commit that already has a lesson
does append a second record, but `loadLesson` then returns the first-stored
(older) lesson even though a strictly newer one exists — not the newest by
creation time as claimed. -/
theorem loadLesson_claim_counterexample :
    (generateLesson [mkLessonRec 1 "a".data (mkCommit 0 rs0 0) "t1".data]
          (mkCommit 0 rs0 0) "t2".data 2 "b".data).1 =
        [mkLessonRec 1 "a".data (mkCommit 0 rs0 0) "t1".data,
         mkLessonRec 2 "b".data (mkCommit 0 rs0 0) "t2".data] ∧
      loadLesson
          [mkLessonRec 1 "a".data (mkCommit 0 rs0 0) "t1".data,
           mkLessonRec 2 "b".data (mkCommit 0 rs0 0) "t2".data]
          (mkCommit 0 rs0 0).id =
        some (mkLessonRec 1 "a".data (mkCommit 0 rs0 0) "t1".data) ∧
      (mkLessonRec 1 "a".data (mkCommit 0 rs0 0) "t1".data).createdAt <
        (mkLessonRec 2 "b".data (mkCommit 0 rs0 0) "t2".data).createdAt ∧
      mkLessonRec 1 "a".data (mkCommit 0 rs0 0) "t1".data ≠
        mkLessonRec 2 "b".data (mkCommit 0 rs0 0) "t2".data := by
  refine ⟨by decide, by decide, by decide, by decide⟩

/-- C2 (amended): regenerating a lesson appends a second persisted record
(no replacement of the prior one), and on a store whose insertion order is
creation order the panel's load operation returns the oldest matching
lesson — the first stored — not the newest. -/
theorem lessons_amended :
    (∀ (store : List LessonRec) (c : GenCommit) (text : Str) (now : Nat) (sfx : Str),
        (generateLesson store c text now sfx).1.length = store.length + 1 ∧
          ∀ l ∈ store, l ∈ (generateLesson store c text now sfx).1) ∧
      ∀ (store : List LessonRec) (cid : Str),
        store.Pairwise (fun a b => a.createdAt ≤ b.createdAt) →
        ∀ l ∈ store, l.commitId = cid →
          ∃ l0, loadLesson store cid = some l0 ∧ l0.commitId = cid ∧
            ∀ l2 ∈ store, l2.commitId = cid → l0.createdAt ≤ l2.createdAt := by
  constructor
  · intro store c text now sfx
    constructor
    · simp [generateLesson]
    · intro l hl
      simp [generateLesson, hl]
  · intro store cid
    induction store with
    | nil =>
      intro _ l hl
      simp at hl
    | cons x xs ih =>
      intro hpw l hl hcl
      rw [List.pairwise_cons] at hpw
      by_cases hx : x.commitId = cid
      · refine ⟨x, ?_, hx, ?_⟩
        · simp [loadLesson, lessonsList, List.filter_cons, hx]
        · intro l2 hl2 hcl2
          rcases List.mem_cons.mp hl2 with rfl | hl2
          · exact le_refl _
          · exact hpw.1 l2 hl2
      · have hl' : l ∈ xs := by
          rcases List.mem_cons.mp hl with rfl | h
          · exact absurd hcl hx
          · exact h
        obtain ⟨l0, h1, h2, h3⟩ := ih hpw.2 l hl' hcl
        refine ⟨l0, ?_, h2, ?_⟩
        · simpa [loadLesson, lessonsList, List.filter_cons, hx] using h1
        · intro l2 hl2 hcl2
          rcases List.mem_cons.mp hl2 with rfl | hl2
          · exact absurd hcl2 hx
          · exact h3 l2 hl2 hcl2

/-- C2 witness: on a concrete two-lesson store in creation order, the load
operation returns the oldest matching lesson. -/
theorem lessons_amended_witness :
    ∃ l0,
      loadLesson
          [mkLessonRec 1 "a".data (mkCommit 0 rs0 0) "t1".data,
           mkLessonRec 2 "b".data (mkCommit 0 rs0 0) "t2".data]
          (mkCommit 0 rs0 0).id = some l0 ∧
        l0.commitId = (mkCommit 0 rs0 0).id ∧
        ∀ l2 ∈ [mkLessonRec 1 "a".data (mkCommit 0 rs0 0) "t1".data,
                mkLessonRec 2 "b".data (mkCommit 0 rs0 0) "t2".data],
          l2.commitId = (mkCommit 0 rs0 0).id → l0.createdAt ≤ l2.createdAt := by
  exact lessons_amended.2
    [mkLessonRec 1 "a".data (mkCommit 0 rs0 0) "t1".data,
     mkLessonRec 2 "b".data (mkCommit 0 rs0 0) "t2".data]
    (mkCommit 0 rs0 0).id
    (by simp [List.pairwise_cons, mkLessonRec])
    (mkLessonRec 1 "a".data (mkCommit 0 rs0 0) "t1".data)
    (by simp)
    (by decide)

/-! ## The repository intake flow (`analyzeRepository` in RepositoryAnalyzer)

The flow trims and parses the URL, creates a Repository record in status
`analyzing`, generates the synthetic commits, persists each commit followed
by each of its files strictly in order, and finally updates the repository
to status `completed` with the total commit count.  Each persistence call
is one `WriteOp`; a call-indexed failure oracle `fail` models gateway
errors: when call `k` fails the surrounding try/catch aborts the flow with
no further writes and no compensation. -/

structure RepoRec where
  id : Str
  userId : Str
  name : Str
  fullName : Str
  url : Str
  description : Str
  defaultBranch : Str
  totalCommits : Nat
  analysisStatus : Str
deriving DecidableEq

structure CommitRec where
  id : Str
  repositoryId : Str
  sha : Str
  message : Str
  authorName : Str
  authorEmail : Str
  date : Int
  filesChanged : Nat
  additions : Nat
  deletions : Nat
  commitOrder : Nat
deriving DecidableEq

structure FileRec where
  id : Str
  commitId : Str
  filename : Str
  status : Str
  additions : Nat
  deletions : Nat
  patch : Str
deriving DecidableEq

structure DB where
  repositories : List RepoRec
  commits : List CommitRec
  commitFiles : List FileRec
deriving DecidableEq

inductive WriteOp where
  | createRepo (r : RepoRec)
  | createCommit (c : CommitRec)
  | createFile (f : FileRec)
  | updateRepo (rid : Str) (total : Nat) (stat : Str)
deriving DecidableEq

def applyOp (db : DB) : WriteOp → DB
  | .createRepo r => { db with repositories := db.repositories ++ [r] }
  | .createCommit c => { db with commits := db.commits ++ [c] }
  | .createFile f => { db with commitFiles := db.commitFiles ++ [f] }
  | .updateRepo rid total stat =>
      { db with
        repositories := db.repositories.map (fun r =>
          if r.id = rid then { r with totalCommits := total, analysisStatus := stat }
          else r) }

def applyOps (db : DB) (ops : List WriteOp) : DB := ops.foldl applyOp db

/-- Run the writes in order; the call with index `k` such that `fail k` is
true throws, aborting the sequence with the store as written so far. -/
def runOps (fail : Nat → Bool) : DB → Nat → List WriteOp → DB × Bool
  | db, _, [] => (db, true)
  | db, k, op :: rest =>
    if fail k then (db, false) else runOps fail (applyOp db op) (k + 1) rest

def isWS (c : Char) : Bool := c = ' ' || c = '\t' || c = '\n' || c = '\r'

/-- The `url.trim()` step. -/
def trimWS (s : Str) : Str := ((s.dropWhile isWS).reverse.dropWhile isWS).reverse

def repoIdOf (now : Nat) (sfx : Str) : Str :=
  "repo_".data ++ natChars now ++ '_' :: sfx

/-- The repository record created at the start of the flow. -/
def initialRepoRec (rid userId url owner repo : Str) : RepoRec :=
  { id := rid, userId := userId, name := repo,
    fullName := owner ++ '/' :: repo, url := url,
    description := "Repository ".data ++ repo ++ (" by ".data ++ owner),
    defaultBranch := "main".data, totalCommits := 0,
    analysisStatus := "analyzing".data }

def toCommitRec (rid : Str) (c : GenCommit) : CommitRec :=
  { id := c.id, repositoryId := rid, sha := c.sha, message := c.message,
    authorName := c.authorName, authorEmail := c.authorEmail, date := c.date,
    filesChanged := c.filesChanged, additions := c.additions,
    deletions := c.deletions, commitOrder := c.commitOrder }

def toFileRec (f : GenFile) : FileRec :=
  { id := f.id, commitId := f.commitId, filename := f.filename,
    status := f.status, additions := f.additions, deletions := f.deletions,
    patch := f.patch }

/-- The writes issued for one commit: the commit record, then each of its
generated files; `p.1` is the loop index (whose file random stream is
`ffs p.1`), `p.2` the generated commit. -/
def commitBlock (rid : Str) (now : Nat) (ffs : Nat → FileRandStream)
    (p : Nat × GenCommit) : List WriteOp :=
  WriteOp.createCommit (toCommitRec rid p.2) ::
    (simulateCommitFiles p.2.id p.2.filesChanged now (ffs p.1)).map
      (fun f => WriteOp.createFile (toFileRec f))

/-- The full write sequence of the intake flow, in program order. -/
def intakeOps (userId url owner repo rid : Str) (now : Nat) (rs : RandStream)
    (ffs : Nat → FileRandStream) : List WriteOp :=
  WriteOp.createRepo (initialRepoRec rid userId url owner repo) ::
    ((simulateCommitData repo owner now rs).enum.flatMap (commitBlock rid now ffs) ++
      [WriteOp.updateRepo rid (simulateCommitData repo owner now rs).length
        "completed".data])

/-- `analyzeRepository`: empty trimmed URL is rejected up front; a URL the
parser rejects aborts before any write; otherwise the write sequence runs
and on full success the finalized repository is returned to the caller. -/
def analyzeRepository (db : DB) (userId url : Str) (now : Nat) (sfx : Str)
    (rs : RandStream) (ffs : Nat → FileRandStream) (fail : Nat → Bool) :
    DB × Option RepoRec :=
  if trimWS url = [] then (db, none)
  else
    match parseGitHubUrl (trimWS url) with
    | none => (db, none)
    | some (owner, repo) =>
      match runOps fail db 0
          (intakeOps userId (trimWS url) owner repo (repoIdOf now sfx) now rs ffs) with
      | (db2, true) =>
        (db2, some { initialRepoRec (repoIdOf now sfx) userId (trimWS url) owner repo with
                      totalCommits := (simulateCommitData repo owner now rs).length,
                      analysisStatus := "completed".data })
      | (db2, false) => (db2, none)

/-! ## Store bookkeeping for the write sequence -/

def commitOf : WriteOp → Option CommitRec
  | .createCommit c => some c
  | _ => none

def fileOf : WriteOp → Option FileRec
  | .createFile f => some f
  | _ => none

def touchesRepos : WriteOp → Bool
  | .createCommit _ => false
  | .createFile _ => false
  | _ => true

theorem runOps_no_fail {fail : Nat → Bool} (h : ∀ k, fail k = false) :
    ∀ (ops : List WriteOp) (db : DB) (k : Nat),
      runOps fail db k ops = (applyOps db ops, true) := by
  intro ops
  induction ops with
  | nil => intro db k; rfl
  | cons op rest ih =>
    intro db k
    simp [runOps, h k, applyOps, ih (applyOp db op) (k + 1)]

theorem runOps_first_fail {fail : Nat → Bool} :
    ∀ (ops : List WriteOp) (k : Nat) (db : DB) (i : Nat),
      fail (i + k) = true → (∀ j, j < k → fail (i + j) = false) → k < ops.length →
      runOps fail db i ops = (applyOps db (ops.take k), false) := by
  intro ops
  induction ops with
  | nil =>
    intro k db i _ _ hk
    simp at hk
  | cons op rest ih =>
    intro k db i hfk hbef hk
    cases k with
    | zero =>
      simp only [Nat.add_zero] at hfk
      simp [runOps, hfk, applyOps]
    | succ k' =>
      have h0 : fail i = false := by simpa using hbef 0 (Nat.succ_pos k')
      have hfk' : fail (i + 1 + k') = true := by
        have he : i + 1 + k' = i + (k' + 1) := by omega
        rw [he]; exact hfk
      have hbef' : ∀ j, j < k' → fail (i + 1 + j) = false := by
        intro j hj
        have he : i + 1 + j = i + (j + 1) := by omega
        rw [he]; exact hbef (j + 1) (by omega)
      have hk' : k' < rest.length := by
        simp only [List.length_cons] at hk
        omega
      have hres := ih k' (applyOp db op) (i + 1) hfk' hbef' hk'
      simp [runOps, h0, hres, applyOps, List.take_succ_cons]

theorem applyOps_commits : ∀ (ops : List WriteOp) (db : DB),
    (applyOps db ops).commits = db.commits ++ ops.filterMap commitOf := by
  intro ops
  induction ops with
  | nil => intro db; simp [applyOps]
  | cons op rest ih =>
    intro db
    have hstep : applyOps db (op :: rest) = applyOps (applyOp db op) rest := rfl
    rw [hstep, ih]
    cases op <;> simp [applyOp, commitOf, List.filterMap_cons]

theorem applyOps_commitFiles : ∀ (ops : List WriteOp) (db : DB),
    (applyOps db ops).commitFiles = db.commitFiles ++ ops.filterMap fileOf := by
  intro ops
  induction ops with
  | nil => intro db; simp [applyOps]
  | cons op rest ih =>
    intro db
    have hstep : applyOps db (op :: rest) = applyOps (applyOp db op) rest := rfl
    rw [hstep, ih]
    cases op <;> simp [applyOp, fileOf, List.filterMap_cons]

theorem applyOps_repositories_untouched : ∀ (ops : List WriteOp) (db : DB),
    (∀ op ∈ ops, touchesRepos op = false) →
    (applyOps db ops).repositories = db.repositories := by
  intro ops
  induction ops with
  | nil => intro db _; rfl
  | cons op rest ih =>
    intro db h
    have hop := h op (List.mem_cons_self _ _)
    have hstep : applyOps db (op :: rest) = applyOps (applyOp db op) rest := rfl
    rw [hstep, ih _ (fun o ho => h o (List.mem_cons_of_mem _ ho))]
    cases op <;> simp_all [applyOp, touchesRepos]

theorem commitBlock_untouched (rid : Str) (now : Nat) (ffs : Nat → FileRandStream)
    (p : Nat × GenCommit) : ∀ op ∈ commitBlock rid now ffs p, touchesRepos op = false := by
  intro op hop
  simp only [commitBlock, List.mem_cons, List.mem_map] at hop
  rcases hop with rfl | ⟨f, -, rfl⟩ <;> rfl

theorem bodyOps_untouched (rid : Str) (now : Nat) (ffs : Nat → FileRandStream)
    (l : List (Nat × GenCommit)) :
    ∀ op ∈ l.flatMap (commitBlock rid now ffs), touchesRepos op = false := by
  intro op hop
  rw [List.mem_flatMap] at hop
  obtain ⟨p, -, hop⟩ := hop
  exact commitBlock_untouched rid now ffs p op hop

theorem filterMap_commitOf_fileOps (fs : List GenFile) :
    (fs.map (fun f => WriteOp.createFile (toFileRec f))).filterMap commitOf = [] := by
  induction fs with
  | nil => rfl
  | cons f fs ih => simp [List.filterMap_cons, commitOf, ih]

theorem filterMap_fileOf_fileOps (fs : List GenFile) :
    (fs.map (fun f => WriteOp.createFile (toFileRec f))).filterMap fileOf =
      fs.map toFileRec := by
  induction fs with
  | nil => rfl
  | cons f fs ih => simp [List.filterMap_cons, fileOf, ih]

theorem bodyOps_filterMap_commit (rid : Str) (now : Nat) (ffs : Nat → FileRandStream) :
    ∀ (l : List (Nat × GenCommit)),
      (l.flatMap (commitBlock rid now ffs)).filterMap commitOf =
        l.map (fun p => toCommitRec rid p.2) := by
  intro l
  induction l with
  | nil => rfl
  | cons p ps ih =>
    simp only [List.flatMap_cons, List.filterMap_append, ih, commitBlock,
      List.filterMap_cons, commitOf, filterMap_commitOf_fileOps, List.map_cons]
    rfl

theorem bodyOps_filterMap_file (rid : Str) (now : Nat) (ffs : Nat → FileRandStream) :
    ∀ (l : List (Nat × GenCommit)),
      (l.flatMap (commitBlock rid now ffs)).filterMap fileOf =
        l.flatMap (fun p =>
          (simulateCommitFiles p.2.id p.2.filesChanged now (ffs p.1)).map toFileRec) := by
  intro l
  induction l with
  | nil => rfl
  | cons p ps ih =>
    simp only [List.flatMap_cons, List.filterMap_append, ih, commitBlock,
      List.filterMap_cons, commitOf, fileOf, filterMap_fileOf_fileOps]

theorem intake_final_db (db : DB) (userId url owner repo rid : Str) (now : Nat)
    (rs : RandStream) (ffs : Nat → FileRandStream)
    (hfreshR : ∀ r ∈ db.repositories, r.id ≠ rid) :
    (applyOps db (intakeOps userId url owner repo rid now rs ffs)).repositories =
        db.repositories ++
          [{ initialRepoRec rid userId url owner repo with
              totalCommits := (simulateCommitData repo owner now rs).length,
              analysisStatus := "completed".data }] ∧
      (applyOps db (intakeOps userId url owner repo rid now rs ffs)).commits =
        db.commits ++ (simulateCommitData repo owner now rs).enum.map
          (fun p => toCommitRec rid p.2) ∧
      (applyOps db (intakeOps userId url owner repo rid now rs ffs)).commitFiles =
        db.commitFiles ++ (simulateCommitData repo owner now rs).enum.flatMap
          (fun p =>
            (simulateCommitFiles p.2.id p.2.filesChanged now (ffs p.1)).map toFileRec) := by
  have h1 : applyOps db (intakeOps userId url owner repo rid now rs ffs) =
      applyOp
        (applyOps
          (applyOp db (WriteOp.createRepo (initialRepoRec rid userId url owner repo)))
          ((simulateCommitData repo owner now rs).enum.flatMap (commitBlock rid now ffs)))
        (WriteOp.updateRepo rid (simulateCommitData repo owner now rs).length
          "completed".data) := by
    simp only [intakeOps, applyOps, List.foldl_cons, List.foldl_append, List.foldl_nil]
  rw [h1]
  refine ⟨?_, ?_, ?_⟩
  · -- repositories
    have hB :
        (applyOps
          (applyOp db (WriteOp.createRepo (initialRepoRec rid userId url owner repo)))
          ((simulateCommitData repo owner now rs).enum.flatMap
            (commitBlock rid now ffs))).repositories =
          db.repositories ++ [initialRepoRec rid userId url owner repo] := by
      rw [applyOps_repositories_untouched _ _ (bodyOps_untouched rid now ffs _)]
      rfl
    have hupd : ∀ (dbx : DB),
        (applyOp dbx (WriteOp.updateRepo rid (simulateCommitData repo owner now rs).length
          "completed".data)).repositories =
        dbx.repositories.map (fun r =>
          if r.id = rid then
            { r with
              totalCommits := (simulateCommitData repo owner now rs).length,
              analysisStatus := "completed".data }
          else r) := fun dbx => rfl
    rw [hupd, hB, List.map_append, List.map_cons, List.map_nil]
    have hmap : db.repositories.map (fun r =>
        if r.id = rid then
          { r with
            totalCommits := (simulateCommitData repo owner now rs).length,
            analysisStatus := "completed".data }
        else r) = db.repositories := by
      have h : db.repositories.map (fun r =>
          if r.id = rid then
            { r with
              totalCommits := (simulateCommitData repo owner now rs).length,
              analysisStatus := "completed".data }
          else r) = db.repositories.map id :=
        List.map_congr_left (fun r hr => by simp [hfreshR r hr])
      rw [h, List.map_id]
    rw [hmap]
    have hid : (initialRepoRec rid userId url owner repo).id = rid := rfl
    rw [if_pos hid]
  · -- commits
    have hC :
        (applyOp
          (applyOps
            (applyOp db (WriteOp.createRepo (initialRepoRec rid userId url owner repo)))
            ((simulateCommitData repo owner now rs).enum.flatMap
              (commitBlock rid now ffs)))
          (WriteOp.updateRepo rid (simulateCommitData repo owner now rs).length
            "completed".data)).commits =
        (applyOps
          (applyOp db (WriteOp.createRepo (initialRepoRec rid userId url owner repo)))
          ((simulateCommitData repo owner now rs).enum.flatMap
            (commitBlock rid now ffs))).commits := rfl
    rw [hC, applyOps_commits, bodyOps_filterMap_commit]
    rfl
  · -- commit files
    have hC :
        (applyOp
          (applyOps
            (applyOp db (WriteOp.createRepo (initialRepoRec rid userId url owner repo)))
            ((simulateCommitData repo owner now rs).enum.flatMap
              (commitBlock rid now ffs)))
          (WriteOp.updateRepo rid (simulateCommitData repo owner now rs).length
            "completed".data)).commitFiles =
        (applyOps
          (applyOp db (WriteOp.createRepo (initialRepoRec rid userId url owner repo)))
          ((simulateCommitData repo owner now rs).enum.flatMap
            (commitBlock rid now ffs))).commitFiles := rfl
    rw [hC, applyOps_commitFiles, bodyOps_filterMap_file]
    rfl

theorem analyzeRepository_eq_of_parse (db : DB) (userId url : Str) (now : Nat)
    (sfx : Str) (rs : RandStream) (ffs : Nat → FileRandStream) (fail : Nat → Bool)
    (owner repo : Str) (hne : trimWS url ≠ [])
    (hparse : parseGitHubUrl (trimWS url) = some (owner, repo)) :
    analyzeRepository db userId url now sfx rs ffs fail =
      match runOps fail db 0
          (intakeOps userId (trimWS url) owner repo (repoIdOf now sfx) now rs ffs) with
      | (db2, true) =>
        (db2, some { initialRepoRec (repoIdOf now sfx) userId (trimWS url) owner repo with
                      totalCommits := (simulateCommitData repo owner now rs).length,
                      analysisStatus := "completed".data })
      | (db2, false) => (db2, none) := by
  simp only [analyzeRepository, if_neg hne, hparse]

/-- C8: when the intake flow runs to completion on a valid URL with no
persistence failure, the Repository record created in status `analyzing`
ends persisted in status `completed` with `totalCommits` equal to the
number of Commit records stored for it, every generated commit and every
one of its CommitFile records is persisted, and in the write sequence all
of those creates occur strictly before the final repository update. -/
theorem analyzeRepository_success (db : DB) (userId url : Str) (now : Nat) (sfx : Str)
    (rs : RandStream) (ffs : Nat → FileRandStream) (fail : Nat → Bool) (owner repo : Str)
    (hparse : parseGitHubUrl (trimWS url) = some (owner, repo))
    (hok : ∀ k, fail k = false)
    (hfreshR : ∀ r ∈ db.repositories, r.id ≠ repoIdOf now sfx)
    (hfreshC : ∀ c ∈ db.commits, c.repositoryId ≠ repoIdOf now sfx) :
    analyzeRepository db userId url now sfx rs ffs fail =
        (applyOps db
            (intakeOps userId (trimWS url) owner repo (repoIdOf now sfx) now rs ffs),
          some { initialRepoRec (repoIdOf now sfx) userId (trimWS url) owner repo with
                  totalCommits := (simulateCommitData repo owner now rs).length,
                  analysisStatus := "completed".data }) ∧
      (∃ rrec ∈ (applyOps db
            (intakeOps userId (trimWS url) owner repo (repoIdOf now sfx) now rs
              ffs)).repositories,
          rrec.id = repoIdOf now sfx ∧ rrec.analysisStatus = "completed".data ∧
            rrec.totalCommits =
              ((applyOps db
                  (intakeOps userId (trimWS url) owner repo (repoIdOf now sfx) now rs
                    ffs)).commits.filter
                (fun c => c.repositoryId == repoIdOf now sfx)).length) ∧
      (∀ p ∈ (simulateCommitData repo owner now rs).enum,
          toCommitRec (repoIdOf now sfx) p.2 ∈
              (applyOps db
                (intakeOps userId (trimWS url) owner repo (repoIdOf now sfx) now rs
                  ffs)).commits ∧
            ∀ f ∈ simulateCommitFiles p.2.id p.2.filesChanged now (ffs p.1),
              toFileRec f ∈
                (applyOps db
                  (intakeOps userId (trimWS url) owner repo (repoIdOf now sfx) now rs
                    ffs)).commitFiles) ∧
      ∃ body,
        intakeOps userId (trimWS url) owner repo (repoIdOf now sfx) now rs ffs =
            WriteOp.createRepo
                (initialRepoRec (repoIdOf now sfx) userId (trimWS url) owner repo) ::
              (body ++
                [WriteOp.updateRepo (repoIdOf now sfx)
                  (simulateCommitData repo owner now rs).length "completed".data]) ∧
          ∀ p ∈ (simulateCommitData repo owner now rs).enum,
            WriteOp.createCommit (toCommitRec (repoIdOf now sfx) p.2) ∈ body ∧
              ∀ f ∈ simulateCommitFiles p.2.id p.2.filesChanged now (ffs p.1),
                WriteOp.createFile (toFileRec f) ∈ body := by
  have hne : trimWS url ≠ [] := by
    intro he
    rw [he] at hparse
    simp [parseGitHubUrl, List.isPrefixOf, schemeHttps, schemeHttp] at hparse
  obtain ⟨hR, hC, hF⟩ :=
    intake_final_db db userId (trimWS url) owner repo (repoIdOf now sfx) now rs ffs hfreshR
  refine ⟨?_, ?_, ?_, ?_⟩
  · rw [analyzeRepository_eq_of_parse db userId url now sfx rs ffs fail owner repo hne
      hparse]
    rw [runOps_no_fail hok]
  · refine ⟨{ initialRepoRec (repoIdOf now sfx) userId (trimWS url) owner repo with
        totalCommits := (simulateCommitData repo owner now rs).length,
        analysisStatus := "completed".data }, ?_, rfl, rfl, ?_⟩
    · rw [hR]
      exact List.mem_append_right _ (by simp)
    · rw [hC, List.filter_append]
      have hnil : db.commits.filter
          (fun c => c.repositoryId == repoIdOf now sfx) = [] :=
        List.filter_eq_nil_iff.mpr (fun c hc => by simp [hfreshC c hc])
      have hall : ((simulateCommitData repo owner now rs).enum.map
            (fun p => toCommitRec (repoIdOf now sfx) p.2)).filter
            (fun c => c.repositoryId == repoIdOf now sfx) =
          (simulateCommitData repo owner now rs).enum.map
            (fun p => toCommitRec (repoIdOf now sfx) p.2) :=
        List.filter_eq_self.mpr (fun c hc => by
          obtain ⟨p, -, rfl⟩ := List.mem_map.mp hc
          simp [toCommitRec])
      rw [hnil, hall]
      simp [List.enum_length]
  · intro p hp
    constructor
    · rw [hC]
      exact List.mem_append_right _ (List.mem_map.mpr ⟨p, hp, rfl⟩)
    · intro f hf
      rw [hF]
      exact List.mem_append_right _
        (List.mem_flatMap.mpr ⟨p, hp, List.mem_map.mpr ⟨f, hf, rfl⟩⟩)
  · refine ⟨(simulateCommitData repo owner now rs).enum.flatMap
      (commitBlock (repoIdOf now sfx) now ffs), rfl, ?_⟩
    intro p hp
    constructor
    · exact List.mem_flatMap.mpr ⟨p, hp, List.mem_cons_self _ _⟩
    · intro f hf
      exact List.mem_flatMap.mpr
        ⟨p, hp, List.mem_cons_of_mem _ (List.mem_map.mpr ⟨f, hf, rfl⟩)⟩

def emptyDB : DB := { repositories := [], commits := [], commitFiles := [] }

/-- C8 witness: a concrete run on `https://github.com/acme/widgets` over an
empty store, with no failures, returns the finalized repository and the
fully applied write sequence. -/
theorem analyzeRepository_success_witness :
    parseGitHubUrl (trimWS "https://github.com/acme/widgets".data) =
        some ("acme".data, "widgets".data) ∧
      analyzeRepository emptyDB "u1".data "https://github.com/acme/widgets".data 0
          "x".data rs0 (fun _ => fs0) (fun _ => false) =
        (applyOps emptyDB
            (intakeOps "u1".data (trimWS "https://github.com/acme/widgets".data)
              "acme".data "widgets".data (repoIdOf 0 "x".data) 0 rs0 (fun _ => fs0)),
          some { initialRepoRec (repoIdOf 0 "x".data) "u1".data
                  (trimWS "https://github.com/acme/widgets".data) "acme".data
                  "widgets".data with
                totalCommits :=
                  (simulateCommitData "widgets".data "acme".data 0 rs0).length,
                analysisStatus := "completed".data }) := by
  have hparse : parseGitHubUrl (trimWS "https://github.com/acme/widgets".data) =
      some ("acme".data, "widgets".data) := by decide
  refine ⟨hparse, ?_⟩
  exact (analyzeRepository_success emptyDB "u1".data
    "https://github.com/acme/widgets".data 0 "x".data rs0 (fun _ => fs0)
    (fun _ => false) "acme".data "widgets".data hparse (fun k => rfl)
    (by intro r hr; simp [emptyDB] at hr) (by intro c hc; simp [emptyDB] at hc)).1

/-- C9: if the first failing persistence call is call `k` (any point inside
the write sequence), the flow aborts with no result: exactly the writes
before call `k` are applied — they are not rolled back and nothing further
is written — and when the initial repository create already succeeded the
repository is left in status `analyzing` with `totalCommits = 0` and a
truncated commit set. -/
theorem analyzeRepository_failure (db : DB) (userId url : Str) (now : Nat) (sfx : Str)
    (rs : RandStream) (ffs : Nat → FileRandStream) (fail : Nat → Bool)
    (owner repo : Str) (k : Nat)
    (hparse : parseGitHubUrl (trimWS url) = some (owner, repo))
    (hfk : fail k = true) (hbef : ∀ j, j < k → fail j = false)
    (hk : k <
      (intakeOps userId (trimWS url) owner repo (repoIdOf now sfx) now rs ffs).length) :
    analyzeRepository db userId url now sfx rs ffs fail =
        (applyOps db
            ((intakeOps userId (trimWS url) owner repo (repoIdOf now sfx) now rs
              ffs).take k),
          none) ∧
      (1 ≤ k →
        initialRepoRec (repoIdOf now sfx) userId (trimWS url) owner repo ∈
            (applyOps db
              ((intakeOps userId (trimWS url) owner repo (repoIdOf now sfx) now rs
                ffs).take k)).repositories ∧
          (initialRepoRec (repoIdOf now sfx) userId (trimWS url) owner
              repo).analysisStatus = "analyzing".data ∧
          (initialRepoRec (repoIdOf now sfx) userId (trimWS url) owner
              repo).totalCommits = 0) := by
  have hne : trimWS url ≠ [] := by
    intro he
    rw [he] at hparse
    simp [parseGitHubUrl, List.isPrefixOf, schemeHttps, schemeHttp] at hparse
  have hrun := runOps_first_fail
    (intakeOps userId (trimWS url) owner repo (repoIdOf now sfx) now rs ffs) k db 0
    (by simpa using hfk) (fun j hj => by simpa using hbef j hj) hk
  constructor
  · rw [analyzeRepository_eq_of_parse db userId url now sfx rs ffs fail owner repo hne
      hparse, hrun]
  · intro hk1
    obtain ⟨k', rfl⟩ : ∃ k', k = k' + 1 := ⟨k - 1, by omega⟩
    have hshape : intakeOps userId (trimWS url) owner repo (repoIdOf now sfx) now rs ffs =
        WriteOp.createRepo
            (initialRepoRec (repoIdOf now sfx) userId (trimWS url) owner repo) ::
          ((simulateCommitData repo owner now rs).enum.flatMap
              (commitBlock (repoIdOf now sfx) now ffs) ++
            [WriteOp.updateRepo (repoIdOf now sfx)
              (simulateCommitData repo owner now rs).length "completed".data]) := rfl
    have hk' : k' ≤ ((simulateCommitData repo owner now rs).enum.flatMap
        (commitBlock (repoIdOf now sfx) now ffs)).length := by
      rw [hshape] at hk
      simp only [List.length_cons, List.length_append, List.length_nil] at hk
      omega
    have hrepos : (applyOps db
        ((intakeOps userId (trimWS url) owner repo (repoIdOf now sfx) now rs
          ffs).take (k' + 1))).repositories =
        db.repositories ++
          [initialRepoRec (repoIdOf now sfx) userId (trimWS url) owner repo] := by
      rw [hshape, List.take_succ_cons, List.take_append_of_le_length hk']
      have hstep : applyOps db
          (WriteOp.createRepo
              (initialRepoRec (repoIdOf now sfx) userId (trimWS url) owner repo) ::
            ((simulateCommitData repo owner now rs).enum.flatMap
              (commitBlock (repoIdOf now sfx) now ffs)).take k') =
          applyOps
            (applyOp db (WriteOp.createRepo
              (initialRepoRec (repoIdOf now sfx) userId (trimWS url) owner repo)))
            (((simulateCommitData repo owner now rs).enum.flatMap
              (commitBlock (repoIdOf now sfx) now ffs)).take k') := rfl
      rw [hstep, applyOps_repositories_untouched _ _ (fun op hop =>
        bodyOps_untouched (repoIdOf now sfx) now ffs _ op
          (List.take_subset _ _ hop))]
      rfl
    exact ⟨by rw [hrepos]; exact List.mem_append_right _ (by simp), rfl, rfl⟩

/-- C9 witness: with the second persistence call (call index 1, the first
commit create) failing, the run aborts leaving exactly the repository
create applied, and the repository record is still in status `analyzing`. -/
theorem analyzeRepository_failure_witness :
    analyzeRepository emptyDB "u1".data "https://github.com/acme/widgets".data 0
        "x".data rs0 (fun _ => fs0) (fun k => k == 1) =
      (applyOps emptyDB
          ((intakeOps "u1".data (trimWS "https://github.com/acme/widgets".data)
            "acme".data "widgets".data (repoIdOf 0 "x".data) 0 rs0
            (fun _ => fs0)).take 1),
        none) ∧
      initialRepoRec (repoIdOf 0 "x".data) "u1".data
          (trimWS "https://github.com/acme/widgets".data) "acme".data "widgets".data ∈
        (applyOps emptyDB
          ((intakeOps "u1".data (trimWS "https://github.com/acme/widgets".data)
            "acme".data "widgets".data (repoIdOf 0 "x".data) 0 rs0
            (fun _ => fs0)).take 1)).repositories ∧
      (initialRepoRec (repoIdOf 0 "x".data) "u1".data
          (trimWS "https://github.com/acme/widgets".data) "acme".data
          "widgets".data).analysisStatus = "analyzing".data := by
  have hparse : parseGitHubUrl (trimWS "https://github.com/acme/widgets".data) =
      some ("acme".data, "widgets".data) := by decide
  have h := analyzeRepository_failure emptyDB "u1".data
    "https://github.com/acme/widgets".data 0 "x".data rs0 (fun _ => fs0)
    (fun k => k == 1) "acme".data "widgets".data 1 hparse rfl (by decide) (by decide)
  exact ⟨h.1, (h.2 (by decide)).1, (h.2 (by decide)).2.1⟩

end LessonGen
